import Mathlib

set_option maxRecDepth 8000

/-!
Verification development for the `local-ai-live-tools` repository.

The Python sources (`voice.py`, `main.py`, `persona_manager.py`) are shallowly
embedded: pure fragments become Lean functions, the transcript buffer and the
comment queue become explicit state passing, wall-clock times become rationals,
Python strings become `List Char` where character-level behaviour matters and
`String` elsewhere.  Randomness (`random.sample`, `random.shuffle`) is modelled
by an explicit tape / permutation parameter.
-/

/-! ## Transcript buffer (`voice.py`, `RealTimeVoiceRecognizer`)

An element of `recognized_texts`: a dict with keys "text", "timestamp" and "time" (a `time.time()` float).
The float wall-clock time is modelled as a rational; only its order matters. -/

structure VoiceEntry where
  text : String
  timestamp : String
  time : Rat
  deriving DecidableEq, Repr

/-- Embedding of `RealTimeVoiceRecognizer.get_recent_texts` (voice.py lines 231-253).
First filter by time strictly greater than `since_timestamp` (when given), then, when
`limit is not None and limit > 0`, keep the last `limit` elements
(`filtered_texts[-limit:]`). -/
def get_recent_texts (texts : List VoiceEntry) (since_timestamp : Option Rat)
    (limit : Option Int) : List VoiceEntry :=
  let filtered :=
    match since_timestamp with
    | some s => texts.filter (fun item => s < item.time)
    | none => texts
  match limit with
  | some l => if 0 < l then filtered.drop (filtered.length - l.toNat) else filtered
  | none => filtered

/-- Embedding of `RealTimeVoiceRecognizer.get_and_clear_recent_texts`
(voice.py lines 260-279).  Returns the pair (returned list, new buffer contents).
With a timestamp, the entries with `time > since_timestamp` are returned and the
buffer is reassigned to the entries with `time <= since_timestamp`. -/
def get_and_clear_recent_texts (texts : List VoiceEntry) (since_timestamp : Option Rat) :
    List VoiceEntry × List VoiceEntry :=
  match since_timestamp with
  | none => (texts, [])
  | some s => (texts.filter (fun item => s < item.time),
               texts.filter (fun item => item.time ≤ s))

/-! ## Audio capture queue (`voice.py`, `__init__` line 60 and `audio_callback` lines 81-96)

`queue.Queue(maxsize)` is modelled by its maxsize and its item list (front = oldest).
Python semantics: `maxsize = 0` means an infinite queue; `put_nowait` raises
`queue.Full` exactly when `0 < maxsize ≤ len(items)`. -/

structure PyQueue (α : Type) where
  maxsize : Nat
  items : List α
  deriving DecidableEq, Repr

def PyQueue.isFull {α : Type} (q : PyQueue α) : Bool :=
  decide (0 < q.maxsize) && decide (q.maxsize ≤ q.items.length)

/-- Embedding of `RealTimeVoiceRecognizer.audio_callback` (voice.py lines 81-96):
try `put_nowait`; on `queue.Full`, `get_nowait` the oldest item and put again. -/
def audio_callback {α : Type} (frame : α) (q : PyQueue α) : PyQueue α :=
  if q.isFull then { q with items := q.items.tail ++ [frame] }
  else { q with items := q.items ++ [frame] }

/-- Embedding of `self.audio_queue = queue.Queue()` (voice.py line 60):
constructed with the default `maxsize = 0`, i.e. unbounded. -/
def audio_queue_init : PyQueue Nat := { maxsize := 0, items := [] }

/-- With an unbounded queue (`maxsize = 0`) the callback always appends. -/
theorem audio_callback_unbounded {α : Type} (frame : α) (q : PyQueue α)
    (h : q.maxsize = 0) : (audio_callback frame q).items = q.items ++ [frame] := by
  simp [audio_callback, PyQueue.isFull, h]

/-- The callback never changes the capacity field of the queue. -/
theorem audio_callback_maxsize {α : Type} (frame : α) (q : PyQueue α) :
    (audio_callback frame q).maxsize = q.maxsize := by
  unfold audio_callback; split <;> rfl

/-- Iterating the callback keeps the capacity at its initial value 0. -/
theorem audio_iterate_maxsize (k : Nat) :
    ((audio_callback (α := Nat) 0)^[k] audio_queue_init).maxsize = 0 := by
  induction k with
  | zero => simp [audio_queue_init]
  | succ j ihj =>
      rw [Function.iterate_succ_apply', audio_callback_maxsize]
      exact ihj

/-- Depth of the audio queue after `n` driver callbacks with no consumer. -/
theorem audio_depth_after (n : Nat) :
    ((audio_callback (α := Nat) 0)^[n] audio_queue_init).items.length = n := by
  induction n with
  | zero => simp [audio_queue_init]
  | succ k ih =>
      rw [Function.iterate_succ_apply']
      rw [audio_callback_unbounded _ _ (audio_iterate_maxsize k)]
      simp [ih]

/-! ## Claims about the transcript buffer and the audio queue -/

/-- Claim C1, counterexample to the claim as stated.  On the buffer
`[old(time 1), new(time 3)]` with `sinceTime = 2` the call returns the fresh
entry, but the buffer afterwards holds exactly the stale entry: the returned
fresh entry is gone from storage and the older-or-equal entry is retained,
the opposite of the claimed retention. -/
theorem claim_C1_counterexample :
    (get_and_clear_recent_texts
        [⟨"old", "t1", 1⟩, ⟨"new", "t2", 3⟩] (some 2)).1 = [⟨"new", "t2", 3⟩] ∧
    (get_and_clear_recent_texts
        [⟨"old", "t1", 1⟩, ⟨"new", "t2", 3⟩] (some 2)).2 = [⟨"old", "t1", 1⟩] ∧
    (⟨"old", "t1", 1⟩ : VoiceEntry).time ≤ 2 ∧ (2 : Rat) < (⟨"new", "t2", 3⟩ : VoiceEntry).time ∧
    (⟨"new", "t2", 3⟩ : VoiceEntry) ∉
      (get_and_clear_recent_texts [⟨"old", "t1", 1⟩, ⟨"new", "t2", 3⟩] (some 2)).2 ∧
    (⟨"old", "t1", 1⟩ : VoiceEntry) ∈
      (get_and_clear_recent_texts [⟨"old", "t1", 1⟩, ⟨"new", "t2", 3⟩] (some 2)).2 := by
  decide

/-- Claim C1 (amended): `get_and_clear_recent_texts` returns exactly the stored
entries with time strictly greater than `sinceTime`, and the buffer afterwards
holds exactly the stale (older-or-equal) entries: the returned fresh entries are
removed from storage and the stale entries are the ones retained.  Returned and
retained parts are disjoint and together account for the whole buffer. -/
theorem claim_C1 (texts : List VoiceEntry) (s : Rat) :
    (get_and_clear_recent_texts texts (some s)).1 = texts.filter (fun it => s < it.time) ∧
    (get_and_clear_recent_texts texts (some s)).2 = texts.filter (fun it => it.time ≤ s) ∧
    (∀ e ∈ texts, (e ∈ (get_and_clear_recent_texts texts (some s)).2 ↔ e.time ≤ s)) ∧
    (∀ e, ¬ (e ∈ (get_and_clear_recent_texts texts (some s)).1 ∧
             e ∈ (get_and_clear_recent_texts texts (some s)).2)) ∧
    (get_and_clear_recent_texts texts (some s)).1.length +
      (get_and_clear_recent_texts texts (some s)).2.length = texts.length := by
  refine ⟨rfl, rfl, ?_, ?_, ?_⟩
  · intro e he
    simp [get_and_clear_recent_texts, List.mem_filter, he]
  · rintro e ⟨h1, h2⟩
    simp only [get_and_clear_recent_texts, List.mem_filter, decide_eq_true_eq] at h1 h2
    exact absurd h2.2 (not_le.mpr h1.2)
  · simp only [get_and_clear_recent_texts]
    have hc : texts.filter (fun it : VoiceEntry => decide (it.time ≤ s)) =
        texts.filter (fun it : VoiceEntry => ! decide (s < it.time)) := by
      apply List.filter_congr
      intro a _
      rw [← decide_not]
      exact decide_eq_decide.mpr not_lt.symm
    rw [hc]
    exact (List.length_eq_length_filter_add (fun it : VoiceEntry => decide (s < it.time))).symm

/-- Claim C1, witness: the amended theorem evaluated on a concrete buffer. -/
theorem claim_C1_witness :
    (get_and_clear_recent_texts [⟨"old", "t1", 1⟩, ⟨"new", "t2", 3⟩] (some 2)).1
        = [⟨"new", "t2", 3⟩] ∧
    (get_and_clear_recent_texts [⟨"old", "t1", 1⟩, ⟨"new", "t2", 3⟩] (some 2)).2
        = [⟨"old", "t1", 1⟩] := by
  have h := claim_C1 [⟨"old", "t1", 1⟩, ⟨"new", "t2", 3⟩] 2
  exact ⟨h.1.trans (by decide), h.2.1.trans (by decide)⟩

/-- Claim C3, counterexample to the claim as stated.  The claim quantifies over
every limit and every buffer state; with `limit = 0` and the unsorted buffer
`[time 5, time 3]` the call returns 2 entries (more than `limit`) and the result
is not in non-decreasing time order. -/
theorem claim_C3_counterexample :
    get_recent_texts [⟨"a", "t1", 5⟩, ⟨"b", "t2", 3⟩] (some 0) (some 0)
        = [⟨"a", "t1", 5⟩, ⟨"b", "t2", 3⟩] ∧
    ¬ ((get_recent_texts [⟨"a", "t1", 5⟩, ⟨"b", "t2", 3⟩] (some 0) (some 0)).length
        ≤ (0 : Int).toNat) ∧
    ¬ (get_recent_texts [⟨"a", "t1", 5⟩, ⟨"b", "t2", 3⟩] (some 0) (some 0)).Pairwise
        (fun a b => a.time ≤ b.time) := by
  decide

/-- Claim C3 (amended): for a buffer in non-decreasing time order (the invariant
maintained by the appender of the recognizer) and a strictly positive limit,
`get_recent_texts` returns only entries with time strictly greater than
`sinceTime`, in non-decreasing time order, at most `limit` of them, and the
result is exactly the most recent (final) `min limit |filtered|` entries of the
filtered list. -/
theorem claim_C3 (texts : List VoiceEntry) (s : Rat) (l : Int) (hl : 1 ≤ l)
    (hsorted : texts.Pairwise (fun a b => a.time ≤ b.time)) :
    (∀ e ∈ get_recent_texts texts (some s) (some l), s < e.time) ∧
    (get_recent_texts texts (some s) (some l)).Pairwise (fun a b => a.time ≤ b.time) ∧
    (get_recent_texts texts (some s) (some l)).length ≤ l.toNat ∧
    (texts.filter (fun it => s < it.time)).take
        ((texts.filter (fun it => s < it.time)).length - l.toNat)
      ++ get_recent_texts texts (some s) (some l) = texts.filter (fun it => s < it.time) ∧
    (get_recent_texts texts (some s) (some l)).length
      = min l.toNat (texts.filter (fun it => s < it.time)).length := by
  have hres : get_recent_texts texts (some s) (some l) =
      (texts.filter (fun it => s < it.time)).drop
        ((texts.filter (fun it => s < it.time)).length - l.toNat) := by
    simp only [get_recent_texts]
    rw [if_pos (by omega)]
  refine ⟨?_, ?_, ?_, ?_, ?_⟩
  · intro e he
    rw [hres] at he
    have := (List.drop_sublist _ _).mem he
    simpa using (List.mem_filter.mp this).2
  · rw [hres]
    exact ((hsorted.filter _).sublist (List.drop_sublist _ _))
  · rw [hres, List.length_drop]
    omega
  · rw [hres]
    exact List.take_append_drop _ _
  · rw [hres, List.length_drop]
    omega

/-- Claim C3, witness: concrete sorted buffer, sinceTime 1, limit 2; the three
entries newer than 1 are truncated to the most recent two. -/
theorem claim_C3_witness :
    get_recent_texts [⟨"a", "t1", 1⟩, ⟨"b", "t2", 2⟩, ⟨"c", "t3", 3⟩, ⟨"d", "t4", 4⟩]
        (some 1) (some 2) = [⟨"c", "t3", 3⟩, ⟨"d", "t4", 4⟩] ∧
    (get_recent_texts [⟨"a", "t1", 1⟩, ⟨"b", "t2", 2⟩, ⟨"c", "t3", 3⟩, ⟨"d", "t4", 4⟩]
        (some 1) (some 2)).length = min (Int.toNat 2)
      ([⟨"a", "t1", 1⟩, ⟨"b", "t2", 2⟩, ⟨"c", "t3", 3⟩, ⟨"d", "t4", 4⟩].filter
        (fun it : VoiceEntry => (1 : Rat) < it.time)).length := by
  have h := claim_C3 [⟨"a", "t1", 1⟩, ⟨"b", "t2", 2⟩, ⟨"c", "t3", 3⟩, ⟨"d", "t4", 4⟩]
    1 2 (by decide) (by decide)
  exact ⟨by decide, h.2.2.2.2⟩

/-- Claim C9: when the limit is zero or negative, `get_recent_texts` applies no
truncation and returns the whole filtered list. -/
theorem claim_C9 (texts : List VoiceEntry) (s : Rat) (l : Int) (hl : l ≤ 0) :
    get_recent_texts texts (some s) (some l) = texts.filter (fun it => s < it.time) := by
  simp only [get_recent_texts]
  rw [if_neg (by omega)]

/-- Claim C9, witness: with limit 0 the call returns both fresh entries, more
entries than the limit. -/
theorem claim_C9_witness :
    get_recent_texts [⟨"a", "t1", 5⟩, ⟨"b", "t2", 3⟩] (some 0) (some 0)
        = [⟨"a", "t1", 5⟩, ⟨"b", "t2", 3⟩] ∧
    (0 : Int).toNat <
      (get_recent_texts [⟨"a", "t1", 5⟩, ⟨"b", "t2", 3⟩] (some 0) (some 0)).length := by
  have h := claim_C9 [⟨"a", "t1", 5⟩, ⟨"b", "t2", 3⟩] 0 0 (by decide)
  exact ⟨h.trans (by decide), by rw [h]; decide⟩

/-- Claim C8, counterexample to the claim as stated.  The audio queue is
constructed with `queue.Queue()`, i.e. `maxsize = 0` (unbounded), so `put_nowait`
never raises `queue.Full`; after 1001 driver callbacks with no consumer the
queue depth is 1001 — the depth is not kept under any fixed bound. -/
theorem claim_C8_counterexample :
    audio_queue_init.maxsize = 0 ∧
    ((audio_callback (α := Nat) 0)^[1001] audio_queue_init).items.length = 1001 ∧
    ¬ (((audio_callback (α := Nat) 0)^[1001] audio_queue_init).items.length ≤ 1000) := by
  refine ⟨rfl, audio_depth_after 1001, ?_⟩
  rw [audio_depth_after 1001]
  omega

/-- Claim C8 (amended): the drop-oldest-on-full handling of the callback would keep
the depth of a bounded queue (`maxsize = m > 0`) at or below `m`, but the audio
queue is constructed unbounded (`maxsize = 0`), the full branch is unreachable,
and the depth after `n` callbacks with no consumer is exactly `n`. -/
theorem claim_C8 :
    (∀ (m : Nat) (q : PyQueue Nat) (frame : Nat), 0 < m → q.maxsize = m →
        q.items.length ≤ m → (audio_callback frame q).items.length ≤ m) ∧
    audio_queue_init.maxsize = 0 ∧
    (∀ n : Nat, ((audio_callback (α := Nat) 0)^[n] audio_queue_init).items.length = n) := by
  refine ⟨?_, rfl, audio_depth_after⟩
  intro m q frame hm hqm hlen
  unfold audio_callback
  by_cases hfull : q.isFull
  · rw [if_pos hfull]
    simp only [List.length_append, List.length_tail, List.length_cons, List.length_nil]
    omega
  · rw [if_neg hfull]
    simp only [PyQueue.isFull, Bool.and_eq_true, decide_eq_true_eq, not_and, not_le] at hfull
    simp only [List.length_append, List.length_cons, List.length_nil]
    have := hfull (by omega)
    omega

/-- Claim C8, witness: a bounded queue of capacity 2 stays at depth 2 across a
callback, while the real (unbounded) queue reaches depth 3 after 3 callbacks. -/
theorem claim_C8_witness :
    (audio_callback 9 { maxsize := 2, items := [1, 2] }).items.length ≤ 2 ∧
    ((audio_callback (α := Nat) 0)^[3] audio_queue_init).items.length = 3 := by
  exact ⟨claim_C8.1 2 { maxsize := 2, items := [1, 2] } 9 (by decide) rfl (by decide),
         claim_C8.2.2 3⟩

/-! ## Persona registry (`persona_manager.py`)

`Persona` dataclass (persona_manager.py lines 14-22); the registry
`self.personas : Dict[str, Persona]` is modelled as an association list in
insertion order.  The Python field `example` is renamed `example_text`
(`example` is a Lean keyword). -/

structure Persona where
  persona_id : String
  name : String
  handle : String
  description : String
  style : String
  example_text : String
  deriving DecidableEq, Repr

/-- Model of `random.sample(l, n)`: draw `n` elements without replacement.  The
randomness is an explicit tape of naturals; entry `t` selects index
`t % (remaining pool size)`.  (CPython raises `ValueError` when `n > len(l)`;
the caller clamps `n`, so that case is unreachable and modelled as exhaustion.) -/
def sample {α : Type} : Nat → List α → List Nat → List α
  | 0, _, _ => []
  | _ + 1, [], _ => []
  | n + 1, a :: as, tape =>
      (a :: as).get ⟨tape.headD 0 % (a :: as).length,
        Nat.mod_lt _ (Nat.succ_pos as.length)⟩ ::
        sample n ((a :: as).eraseIdx (tape.headD 0 % (a :: as).length)) tape.tail

/-- Embedding of `PersonaManager.get_random_personas` (persona_manager.py lines
97-116): filter out excluded ids, clamp the requested count to the pool size
(printing a warning, returned here as a Bool), sample ids without replacement,
and look each id up in the pool.  `exclude = exclude or []` is modelled by the
caller passing the empty list. -/
def get_random_personas (personas : List (String × Persona)) (count : Nat)
    (exclude : List String) (tape : List Nat) : List Persona × Bool :=
  let available := personas.filter (fun kv => ! exclude.contains kv.1)
  let warned := available.length < count
  let count2 := if available.length < count then available.length else count
  let ids := sample count2 (available.map (fun kv => kv.1)) tape
  (ids.filterMap (fun pid => available.lookup pid), decide warned)

theorem sample_length {α : Type} :
    ∀ (n : Nat) (l : List α) (tape : List Nat), n ≤ l.length →
      (sample n l tape).length = n := by
  intro n
  induction n with
  | zero => intro l tape _; rfl
  | succ m ih =>
      intro l tape hn
      match l with
      | [] => simp at hn
      | a :: as =>
          have hi : tape.headD 0 % (a :: as).length < (a :: as).length :=
            Nat.mod_lt _ (Nat.succ_pos as.length)
          have herase := List.length_eraseIdx_add_one hi
          have hm : m ≤ ((a :: as).eraseIdx (tape.headD 0 % (a :: as).length)).length := by
            omega
          simp only [sample]
          rw [List.length_cons, ih _ tape.tail hm]

theorem sample_subset {α : Type} :
    ∀ (n : Nat) (l : List α) (tape : List Nat), ∀ x ∈ sample n l tape, x ∈ l := by
  intro n
  induction n with
  | zero => intro l tape x hx; simp [sample] at hx
  | succ m ih =>
      intro l tape x hx
      match l with
      | [] => simp [sample] at hx
      | a :: as =>
          simp only [sample, List.mem_cons] at hx
          rcases hx with hx | hx
          · rw [hx]; exact List.get_mem _ _ _
          · exact (List.eraseIdx_sublist _ _).mem (ih _ tape.tail x hx)

theorem sample_nodup {α : Type} :
    ∀ (n : Nat) (l : List α) (tape : List Nat), l.Nodup → (sample n l tape).Nodup := by
  intro n
  induction n with
  | zero => intro l tape _; simp [sample]
  | succ m ih =>
      intro l tape hnd
      match l with
      | [] => simp [sample]
      | a :: as =>
          simp only [sample, List.nodup_cons]
          set i := tape.headD 0 % (a :: as).length with hidef
          have hi : i < (a :: as).length := Nat.mod_lt _ (Nat.succ_pos as.length)
          refine ⟨?_, ih _ tape.tail (hnd.sublist (List.eraseIdx_sublist _ _))⟩
          intro hmem
          have hmem2 := sample_subset m _ tape.tail _ hmem
          rw [List.mem_eraseIdx_iff_getElem] at hmem2
          obtain ⟨j, hj, hji, hval⟩ := hmem2
          rw [List.get_eq_getElem] at hval
          exact hji (hnd.getElem_inj_iff.mp hval)

theorem sample_perm_full {α : Type} :
    ∀ (n : Nat) (l : List α) (tape : List Nat), l.length = n →
      (sample n l tape).Perm l := by
  intro n
  induction n with
  | zero =>
      intro l tape hl
      rw [List.length_eq_zero.mp hl]
      rfl
  | succ m ih =>
      intro l tape hl
      match l with
      | [] => simp at hl
      | a :: as =>
          simp only [sample]
          set i := tape.headD 0 % (a :: as).length with hidef
          have hi : i < (a :: as).length := Nat.mod_lt _ (Nat.succ_pos as.length)
          have hlen : m = ((a :: as).eraseIdx i).length := by
            have := List.length_eraseIdx_add_one hi
            omega
          have hperm := ih ((a :: as).eraseIdx i) tape.tail hlen.symm
          refine List.Perm.trans (List.Perm.cons _ hperm) ?_
          rw [List.eraseIdx_eq_take_drop_succ, List.get_eq_getElem]
          have hsplit : a :: as = (a :: as).take i ++ (a :: as).get ⟨i, hi⟩ :: (a :: as).drop (i + 1) := by
            conv_lhs => rw [← List.take_append_drop i (a :: as)]
            rw [List.drop_eq_getElem_cons hi, List.get_eq_getElem]
          conv_rhs => rw [hsplit]
          rw [List.get_eq_getElem]
          exact List.perm_middle.symm

theorem pm_lookup_of_mem {β : Type} :
    ∀ (m : List (String × β)) (k : String) (v : β),
      (m.map (fun kv => kv.1)).Nodup → (k, v) ∈ m → m.lookup k = some v := by
  intro m
  induction m with
  | nil => intro k v _ hmem; simp at hmem
  | cons kv rest ih =>
      intro k v hnd hmem
      obtain ⟨k1, v1⟩ := kv
      rw [List.map_cons, List.nodup_cons] at hnd
      rcases List.mem_cons.mp hmem with heq | hmem2
      · rw [Prod.mk.injEq] at heq
        obtain ⟨hk, hv⟩ := heq
        subst hk; subst hv
        simp [List.lookup_cons]
      · have hk1 : k ≠ k1 := by
          intro hcontra
          subst hcontra
          have : k ∈ rest.map (fun kv => kv.1) :=
            List.mem_map.mpr ⟨(k, v), hmem2, rfl⟩
          exact hnd.1 this
        rw [List.lookup_cons]
        simp only [beq_eq_false_iff_ne.mpr hk1]
        exact ih k v hnd.2 hmem2

theorem pm_mem_of_lookup {β : Type} :
    ∀ (m : List (String × β)) (k : String) (v : β),
      m.lookup k = some v → (k, v) ∈ m := by
  intro m
  induction m with
  | nil => intro k v h; simp [List.lookup] at h
  | cons kv rest ih =>
      intro k v h
      obtain ⟨k1, v1⟩ := kv
      rw [List.lookup_cons] at h
      by_cases hk : k = k1
      · subst hk
        simp at h
        subst h
        exact List.mem_cons_self _ _
      · simp only [beq_eq_false_iff_ne.mpr hk] at h
        exact List.mem_cons_of_mem _ (ih k v h)

theorem pm_lookup_exists {β : Type} :
    ∀ (m : List (String × β)) (k : String),
      k ∈ m.map (fun kv => kv.1) → ∃ v, m.lookup k = some v := by
  intro m
  induction m with
  | nil => intro k h; simp at h
  | cons kv rest ih =>
      intro k h
      obtain ⟨k1, v1⟩ := kv
      by_cases hk : k = k1
      · subst hk
        exact ⟨v1, by simp [List.lookup_cons]⟩
      · rw [List.lookup_cons]
        simp only [beq_eq_false_iff_ne.mpr hk]
        apply ih
        simp only [List.map_cons, List.mem_cons] at h
        exact h.resolve_left hk

theorem filterMap_lookup_keys {β : Type} :
    ∀ (m : List (String × β)), (m.map (fun kv => kv.1)).Nodup →
      (m.map (fun kv => kv.1)).filterMap (fun k => m.lookup k) = m.map (fun kv => kv.2) := by
  intro m
  induction m with
  | nil => intro _; rfl
  | cons kv rest ih =>
      intro hnd
      obtain ⟨k1, v1⟩ := kv
      simp only [List.map_cons, List.filterMap_cons]
      have hself : ((k1, v1) :: rest).lookup k1 = some v1 := by simp [List.lookup_cons]
      rw [hself]
      rw [List.map_cons, List.nodup_cons] at hnd
      have hnd2 := hnd
      have hcongr : (rest.map (fun kv => kv.1)).filterMap
          (fun k => ((k1, v1) :: rest).lookup k)
          = (rest.map (fun kv => kv.1)).filterMap (fun k => rest.lookup k) := by
        apply List.filterMap_congr
        intro k hk
        rw [List.lookup_cons]
        have : k ≠ k1 := fun hcontra => hnd2.1 (hcontra ▸ hk)
        simp [beq_eq_false_iff_ne.mpr this]
      rw [hcongr, ih hnd2.2]

theorem filterMap_lookup_length {β : Type} :
    ∀ (ids : List String) (m : List (String × β)),
      (∀ k ∈ ids, k ∈ m.map (fun kv => kv.1)) →
      (ids.filterMap (fun k => m.lookup k)).length = ids.length := by
  intro ids m
  induction ids with
  | nil => intro _; rfl
  | cons k rest ih =>
      intro hall
      obtain ⟨v, hv⟩ := pm_lookup_exists m k (hall k (List.mem_cons_self _ _))
      simp only [List.filterMap_cons, hv, List.length_cons]
      rw [ih (fun k2 hk2 => hall k2 (List.mem_cons_of_mem _ hk2))]

theorem filterMap_lookup_map_id :
    ∀ (ids : List String) (m : List (String × Persona)),
      (∀ kv ∈ m, kv.2.persona_id = kv.1) →
      (∀ k ∈ ids, k ∈ m.map (fun kv => kv.1)) →
      (ids.filterMap (fun k => m.lookup k)).map Persona.persona_id = ids := by
  intro ids m hwf
  induction ids with
  | nil => intro _; rfl
  | cons k rest ih =>
      intro hall
      obtain ⟨v, hv⟩ := pm_lookup_exists m k (hall k (List.mem_cons_self _ _))
      have hvid : v.persona_id = k := hwf (k, v) (pm_mem_of_lookup m k v hv)
      simp only [List.filterMap_cons, hv, List.map_cons, hvid]
      rw [ih (fun k2 hk2 => hall k2 (List.mem_cons_of_mem _ hk2))]

/-- Claim C5: for a well-formed registry (unique persona ids, each stored under
its own id), when k is at most the size of the candidate pool (all personas
minus the exclude list), `get_random_personas` returns exactly k distinct
personas drawn from the pool with no repeats; when k exceeds the pool size it
never raises, sets the warning, and returns all pool personas (clamped). -/
theorem claim_C5 (personas : List (String × Persona)) (count : Nat)
    (exclude : List String) (tape : List Nat)
    (hkeys : (personas.map (fun kv => kv.1)).Nodup)
    (hwf : ∀ kv ∈ personas, kv.2.persona_id = kv.1) :
    (count ≤ (personas.filter (fun kv => ! exclude.contains kv.1)).length →
      (get_random_personas personas count exclude tape).1.length = count ∧
      ((get_random_personas personas count exclude tape).1.map Persona.persona_id).Nodup ∧
      (∀ p ∈ (get_random_personas personas count exclude tape).1,
        (p.persona_id, p) ∈ personas.filter (fun kv => ! exclude.contains kv.1)) ∧
      (get_random_personas personas count exclude tape).2 = false) ∧
    ((personas.filter (fun kv => ! exclude.contains kv.1)).length < count →
      (get_random_personas personas count exclude tape).2 = true ∧
      (get_random_personas personas count exclude tape).1.Perm
        ((personas.filter (fun kv => ! exclude.contains kv.1)).map (fun kv => kv.2))) := by
  set pool := personas.filter (fun kv => ! exclude.contains kv.1) with hpool
  have hpoolkeys : (pool.map (fun kv => kv.1)).Nodup :=
    hkeys.sublist ((List.filter_sublist personas).map (fun kv => kv.1))
  have hpoolwf : ∀ kv ∈ pool, kv.2.persona_id = kv.1 := by
    intro kv hkv
    exact hwf kv ((List.filter_sublist personas).mem hkv)
  have hkeylen : (pool.map (fun kv => kv.1)).length = pool.length := List.length_map _ _
  constructor
  · intro hle
    have hnotlt : ¬ pool.length < count := not_lt.mpr hle
    have hres : get_random_personas personas count exclude tape =
        (((sample count (pool.map (fun kv => kv.1)) tape).filterMap
            (fun pid => pool.lookup pid)), false) := by
      simp only [get_random_personas, ← hpool]
      rw [if_neg hnotlt]
      simp [decide_eq_false hnotlt]
    rw [hres]
    have hsub : ∀ k ∈ sample count (pool.map (fun kv => kv.1)) tape,
        k ∈ pool.map (fun kv => kv.1) := sample_subset count _ tape
    refine ⟨?_, ?_, ?_, rfl⟩
    · rw [filterMap_lookup_length _ _ hsub]
      exact sample_length count _ tape (by omega)
    · rw [filterMap_lookup_map_id _ _ hpoolwf hsub]
      exact sample_nodup count _ tape hpoolkeys
    · intro p hp
      obtain ⟨k, hk, hlk⟩ := List.mem_filterMap.mp hp
      have hmem := pm_mem_of_lookup pool k p hlk
      have := hpoolwf (k, p) hmem
      rw [show p.persona_id = k from this]
      exact hmem
  · intro hlt
    have hres : get_random_personas personas count exclude tape =
        (((sample pool.length (pool.map (fun kv => kv.1)) tape).filterMap
            (fun pid => pool.lookup pid)), true) := by
      simp only [get_random_personas, ← hpool]
      rw [if_pos hlt]
      simp [decide_eq_true hlt]
    rw [hres]
    refine ⟨rfl, ?_⟩
    have hperm : (sample pool.length (pool.map (fun kv => kv.1)) tape).Perm
        (pool.map (fun kv => kv.1)) := sample_perm_full _ _ tape hkeylen
    exact (hperm.filterMap (fun pid => pool.lookup pid)).trans
      (by rw [filterMap_lookup_keys pool hpoolkeys])

/-- Claim C5, witness: a three-persona registry, k = 2 with one excluded id
(pool size 2, no warning, two distinct personas returned), and k = 5 with the
same exclusion (clamped to the whole pool, warning set). -/
theorem claim_C5_witness :
    (get_random_personas
        [("a", ⟨"a", "A", "ha", "", "", ""⟩), ("b", ⟨"b", "B", "hb", "", "", ""⟩),
         ("c", ⟨"c", "C", "hc", "", "", ""⟩)] 2 ["b"] [0, 0]).1.length = 2 ∧
    (get_random_personas
        [("a", ⟨"a", "A", "ha", "", "", ""⟩), ("b", ⟨"b", "B", "hb", "", "", ""⟩),
         ("c", ⟨"c", "C", "hc", "", "", ""⟩)] 2 ["b"] [0, 0]).2 = false ∧
    (get_random_personas
        [("a", ⟨"a", "A", "ha", "", "", ""⟩), ("b", ⟨"b", "B", "hb", "", "", ""⟩),
         ("c", ⟨"c", "C", "hc", "", "", ""⟩)] 5 ["b"] [0, 0]).2 = true := by
  have h1 := claim_C5
    [("a", ⟨"a", "A", "ha", "", "", ""⟩), ("b", ⟨"b", "B", "hb", "", "", ""⟩),
     ("c", ⟨"c", "C", "hc", "", "", ""⟩)] 2 ["b"] [0, 0] (by decide) (by decide)
  have h2 := claim_C5
    [("a", ⟨"a", "A", "ha", "", "", ""⟩), ("b", ⟨"b", "B", "hb", "", "", ""⟩),
     ("c", ⟨"c", "C", "hc", "", "", ""⟩)] 5 ["b"] [0, 0] (by decide) (by decide)
  have hc1 := h1.1 (by decide)
  have hc2 := h2.2 (by decide)
  exact ⟨hc1.1, hc1.2.2.2, hc2.1⟩

/-! ## Comment filter and shuffler (`main.py`, lines 651-777)

Python strings are `List Char` here.  `str.lower()` is modelled per character
(ASCII case folding, which is what matters for the keyword list), `in` as a
substring scan, `str.strip()` as trimming whitespace on both ends. -/

def pyLower (s : List Char) : List Char := s.map Char.toLower

/-- Python substring test `needle in hay`. -/
def containsSub (needle : List Char) : List Char → Bool
  | [] => needle.isEmpty
  | c :: rest => needle.isPrefixOf (c :: rest) || containsSub needle rest

def pyStrip (s : List Char) : List Char :=
  ((s.dropWhile Char.isWhitespace).reverse.dropWhile Char.isWhitespace).reverse

/-- The fixed keyword blocklist of `is_non_game_comment` (main.py lines 661-671). -/
def non_game_keywords : List String :=
  ["python", "コード", "クラス", "関数", "メソッド", "変数", "import", "def ", "class ",
   "vscode", "ide", "エディタ", "ハイライト", "構文", "実装", "デバッグ",
   "ブラウザ", "chrome", "firefox", "タブ", "url", "ウェブ", "検索", "google",
   "word", "excel", "powerpoint", "文書", "スプレッドシート", "プレゼン",
   "デスクトップ", "フォルダ", "ファイル", "エクスプローラ", "設定", "コントロールパネル"]

/-- Embedding of `OllamaVisionExplainer.is_non_game_comment` (main.py lines
651-674): any blocklist keyword occurring in the lower-cased comment. -/
def is_non_game_comment (comment : List Char) : Bool :=
  non_game_keywords.any (fun kw => containsSub kw.toList (pyLower comment))

/-- A value of the persona→comment mapping handed to the filter: either a plain
string or an object whose optional "comment" field is read with
`comment_data.get("comment", "")` (main.py lines 724-728). -/
inductive CommentData where
  | cstr (s : List Char)
  | cobj (comment : Option (List Char))
  deriving DecidableEq, Repr

def resolve_comment : CommentData → List Char
  | .cstr s => s
  | .cobj o => o.getD []

/-- The queue item dict `{"handle", "persona", "comment"}` (main.py lines 740-745). -/
structure CommentItem where
  handle : List Char
  persona : List Char
  comment : List Char
  deriving DecidableEq, Repr

/-- One entry of the `for persona, comment_data in response_data.items()` loop of
`add_comments_to_queue` (main.py lines 717-750): skip the "screen_analysis"
diagnostic field, require a known persona, resolve the text, and accept it iff
it is non-empty, its trimmed form is non-empty, its lower-cased form does not
contain "none", and it passes the non-game keyword check. -/
def accept_entry (persona_info : List (String × List Char × List Char))
    (persona : String) (comment_data : CommentData) : Option CommentItem :=
  if persona = "screen_analysis" then none
  else
    match persona_info.lookup persona with
    | none => none
    | some hn =>
        let comment := resolve_comment comment_data
        if comment ≠ [] ∧ pyStrip comment ≠ [] ∧
            containsSub "none".toList (pyLower comment) = false
        then (if is_non_game_comment comment then none else some ⟨hn.1, hn.2, comment⟩)
        else none

/-- The `valid_comments` batch collected by `add_comments_to_queue` (main.py
lines 713-750), in response iteration order. -/
def valid_comments (persona_info : List (String × List Char × List Char))
    (resp : List (String × CommentData)) : List CommentItem :=
  resp.filterMap (fun pc => accept_entry persona_info pc.1 pc.2)

/-- Embedding of the enqueue step of `add_comments_to_queue` (main.py lines
752-762): if any comments survive, `random.shuffle` the batch and put the items
one at a time; otherwise leave the queue untouched.  The shuffle is an explicit
permutation parameter. -/
def add_comments_to_queue (persona_info : List (String × List Char × List Char))
    (resp : List (String × CommentData))
    (shuffle : List CommentItem → List CommentItem)
    (q : List CommentItem) : List CommentItem :=
  let v := valid_comments persona_info resp
  if v.isEmpty then q else q ++ shuffle v

theorem pyStrip_nil : pyStrip [] = [] := rfl

theorem non_game_false_iff (c : List Char) :
    is_non_game_comment c = false ↔
      ∀ kw ∈ non_game_keywords, containsSub kw.toList (pyLower c) = false := by
  unfold is_non_game_comment
  rw [List.any_eq_false]
  simp

/-- Claim C4: for a persona-keyed entry naming a known persona, the filter
accepts it (as a CommentItem with the handle and name of that persona and the
resolved text) iff the text is non-empty after trimming, its lower-cased form
does not contain "none", and no blocklist keyword occurs in it; the texts
"it\u0027s fine, none to report" (apostrophe written as an escape) and
"check the excel sheet" are both rejected; the
enqueued result is the old queue followed by a permutation of the accepted
batch, and when nothing survives the queue is unchanged (and no exception is
possible: the embedding is a total function). -/
theorem claim_C4 (persona_info : List (String × List Char × List Char))
    (p : String) (cd : CommentData) (h nm : List Char)
    (resp : List (String × CommentData))
    (shuffle : List CommentItem → List CommentItem)
    (q : List CommentItem)
    (hs : ∀ l, (shuffle l).Perm l)
    (hp : p ≠ "screen_analysis")
    (hknown : persona_info.lookup p = some (h, nm)) :
    (accept_entry persona_info p cd = some ⟨h, nm, resolve_comment cd⟩ ↔
      (pyStrip (resolve_comment cd) ≠ [] ∧
       containsSub "none".toList (pyLower (resolve_comment cd)) = false ∧
       ∀ kw ∈ non_game_keywords,
         containsSub kw.toList (pyLower (resolve_comment cd)) = false)) ∧
    (accept_entry persona_info p cd = none ∨
     accept_entry persona_info p cd = some ⟨h, nm, resolve_comment cd⟩) ∧
    accept_entry [("p", ("H".toList, "N".toList))] "p"
      (.cstr ("it\u0027s fine, none to report".toList)) = none ∧
    accept_entry [("p", ("H".toList, "N".toList))] "p"
      (.cstr ("check the excel sheet".toList)) = none ∧
    (add_comments_to_queue persona_info resp shuffle q).Perm
      (q ++ valid_comments persona_info resp) ∧
    (valid_comments persona_info resp = [] →
      add_comments_to_queue persona_info resp shuffle q = q) := by
  have hstrip : pyStrip (resolve_comment cd) ≠ [] → resolve_comment cd ≠ [] := by
    intro hne hcontra
    rw [hcontra] at hne
    exact hne pyStrip_nil
  have haccept : accept_entry persona_info p cd =
      (if resolve_comment cd ≠ [] ∧ pyStrip (resolve_comment cd) ≠ [] ∧
          containsSub "none".toList (pyLower (resolve_comment cd)) = false
       then (if is_non_game_comment (resolve_comment cd) then none
             else some ⟨h, nm, resolve_comment cd⟩)
       else none) := by
    unfold accept_entry
    rw [if_neg hp, hknown]
  refine ⟨?_, ?_, by decide, by decide, ?_, ?_⟩
  · rw [haccept]
    by_cases h1 : resolve_comment cd ≠ [] ∧ pyStrip (resolve_comment cd) ≠ [] ∧
        containsSub "none".toList (pyLower (resolve_comment cd)) = false
    · rw [if_pos h1]
      by_cases h2 : is_non_game_comment (resolve_comment cd)
      · rw [if_pos h2]
        constructor
        · intro hcontra; exact absurd hcontra (by simp)
        · rintro ⟨-, -, hall⟩
          rw [(non_game_false_iff _).mpr hall] at h2
          exact absurd h2 (by simp)
      · rw [if_neg h2]
        constructor
        · intro _
          exact ⟨h1.2.1, h1.2.2, (non_game_false_iff _).mp (by simpa using h2)⟩
        · intro _; rfl
    · rw [if_neg h1]
      constructor
      · intro hcontra; exact absurd hcontra (by simp)
      · rintro ⟨hstripne, hnone, -⟩
        exact absurd ⟨hstrip hstripne, hstripne, hnone⟩ h1
  · rw [haccept]
    by_cases h1 : resolve_comment cd ≠ [] ∧ pyStrip (resolve_comment cd) ≠ [] ∧
        containsSub "none".toList (pyLower (resolve_comment cd)) = false
    · rw [if_pos h1]
      by_cases h2 : is_non_game_comment (resolve_comment cd)
      · rw [if_pos h2]; exact Or.inl rfl
      · rw [if_neg h2]; exact Or.inr rfl
    · rw [if_neg h1]; exact Or.inl rfl
  · unfold add_comments_to_queue
    by_cases hv : (valid_comments persona_info resp).isEmpty
    · rw [if_pos hv]
      rw [List.isEmpty_iff.mp hv]
      simp
    · rw [if_neg hv]
      exact (hs (valid_comments persona_info resp)).append_left q
  · intro hv
    unfold add_comments_to_queue
    rw [if_pos (by rw [hv]; rfl)]

/-- Claim C4, witness: a valid comment for a known persona is accepted with the
registered handle and enqueued; the theorem instantiated at that input. -/
theorem claim_C4_witness :
    accept_entry [("p", ("H".toList, "N".toList))] "p" (.cstr ("nice jump!".toList))
      = some ⟨"H".toList, "N".toList, "nice jump!".toList⟩ ∧
    (add_comments_to_queue [("p", ("H".toList, "N".toList))]
        [("p", .cstr ("nice jump!".toList))] id []).Perm
      ([] ++ valid_comments [("p", ("H".toList, "N".toList))]
        [("p", .cstr ("nice jump!".toList))]) := by
  have h := claim_C4 [("p", ("H".toList, "N".toList))] "p" (.cstr ("nice jump!".toList))
    ("H".toList) ("N".toList) [("p", .cstr ("nice jump!".toList))] id []
    (fun l => List.Perm.refl l) (by decide) (by decide)
  exact ⟨h.1.mpr (by decide), h.2.2.2.2.1⟩

/-! ## Response normalizer (`main.py`, `parse_json_response`, lines 534-609)

`json.loads` is an external library call; it is modelled as an oracle parameter
`loads : Option JValue` (`none` = `json.JSONDecodeError`).  The Python dict is
an association list in insertion order. -/

inductive JValue where
  | jnull
  | jbool (b : Bool)
  | jnum (q : Rat)
  | jstr (s : String)
  | jarr (xs : List JValue)
  | jobj (m : List (String × JValue))

/-- Result of `parse_json_response`: the Python function returns either a plain
string or a dict. -/
inductive JResult where
  | rstr (s : String)
  | robj (m : List (String × JValue))

/-- The fixed legacy key vocabulary (main.py line 567). -/
def known_persona_keys : List String :=
  ["listener", "safety", "expert", "fan1", "fan2", "anti", "jikatari", "ero",
   "shogaku", "question", "kaomoji", "safety_monitor", "game_expert"]

/-- The literal schema-error string returned for a non-object parse
(main.py line 601). -/
def schema_error_message : String := "JSON形式エラー: オブジェクト形式ではありません"

/-- Stands for the string built by the outer handler (main.py line 609); the
interpolated exception text is abstracted away. -/
def response_parse_error_message : String := "レスポンス解析エラー"

def lookupJ (m : List (String × JValue)) (k : String) : Option JValue := m.lookup k

/-- `value if isinstance(value, str) else value.get("comment", "")` (main.py
line 586); `none` models the `AttributeError` raised when the value is neither
a string nor a dict, which the outer handler turns into an error string. -/
def convValue : JValue → Option JValue
  | .jstr s => some (.jstr s)
  | .jobj mm => some ((lookupJ mm "comment").getD (.jstr ""))
  | _ => none

/-- Python dict assignment `d[k] = v`: overwrite in place, else append. -/
def dictInsert (m : List (String × JValue)) (k : String) (v : JValue) :
    List (String × JValue) :=
  if (m.map (fun kv => kv.1)).contains k then
    m.map (fun kv => if kv.1 = k then (k, v) else kv)
  else m ++ [(k, v)]

/-- The legacy remap loop of `parse_json_response` (main.py lines 575-593):
`safety_monitor`/`game_expert` values are remapped to `safety`/`expert`
(unwrapping a nested "comment" field), the other keys are copied over. -/
def convertLegacy (m : List (String × JValue)) : Option (List (String × JValue)) := do
  let c1 ← match lookupJ m "safety_monitor" with
    | none => some ([] : List (String × JValue))
    | some v => (convValue v).map (fun cv => dictInsert [] "safety" cv)
  let c2 ← match lookupJ m "game_expert" with
    | none => some c1
    | some v => (convValue v).map (fun cv => dictInsert c1 "expert" cv)
  some (m.foldl (fun acc kv =>
    if kv.1 = "safety_monitor" || kv.1 = "game_expert" then acc
    else dictInsert acc kv.1 kv.2) c2)

/-- Embedding of `OllamaVisionExplainer.parse_json_response` (main.py lines
534-609).  Parse failure returns the raw text; a non-object parse returns the
literal schema-error string; an object with an expected-ids set is returned
as-is whether or not the keys intersect (the intersection check only drives a
warning print); in legacy mode the retired top-level keys are remapped and all
other shapes are returned unchanged. -/
def parse_json_response (loads : Option JValue) (raw : String)
    (expected_persona_ids : Option (List String)) : JResult :=
  match loads with
  | none => .rstr raw
  | some (.jobj m) =>
      match expected_persona_ids with
      | some _ => .robj m
      | none =>
          if (m.map (fun kv => kv.1)).any (fun k => known_persona_keys.contains k) then
            if (m.map (fun kv => kv.1)).contains "safety_monitor" ||
               (m.map (fun kv => kv.1)).contains "game_expert" then
              match convertLegacy m with
              | some conv => .robj conv
              | none => .rstr response_parse_error_message
            else .robj m
          else .robj m
  | some _ => .rstr schema_error_message

/-- Claim C6: the normalizer never raises — when parsing fails it returns the
raw input text unchanged, when the parse succeeds but is not an object it
returns the literal schema-error string, and in every case it returns either a
string or an object value. -/
theorem claim_C6 (loads : Option JValue) (raw : String)
    (expected : Option (List String)) :
    (loads = none → parse_json_response loads raw expected = .rstr raw) ∧
    (∀ v, loads = some v → (∀ m, v ≠ .jobj m) →
      parse_json_response loads raw expected = .rstr schema_error_message) ∧
    ((∃ s, parse_json_response loads raw expected = .rstr s) ∨
     (∃ m, parse_json_response loads raw expected = .robj m)) := by
  refine ⟨?_, ?_, ?_⟩
  · intro hn
    subst hn
    rfl
  · intro v hv hne
    subst hv
    cases v with
    | jobj m => exact absurd rfl (hne m)
    | jnull => rfl
    | jbool b => rfl
    | jnum q => rfl
    | jstr s => rfl
    | jarr xs => rfl
  · cases hres : parse_json_response loads raw expected with
    | rstr s => exact Or.inl ⟨s, rfl⟩
    | robj m => exact Or.inr ⟨m, rfl⟩

/-- Claim C6, witness: a failed parse returns the raw text; a successful parse
of a JSON array returns the schema-error string. -/
theorem claim_C6_witness :
    parse_json_response none "not json at all" none = .rstr "not json at all" ∧
    parse_json_response (some (.jarr [])) "[]" none = .rstr schema_error_message := by
  refine ⟨(claim_C6 none "not json at all" none).1 rfl, ?_⟩
  exact (claim_C6 (some (.jarr [])) "[]" none).2.1 (.jarr []) rfl
    (fun m h => JValue.noConfusion h)

/-! ## Log writer worker (`main.py`, `_xml_output_worker`, lines 802-852)

One iteration of the worker loop is modelled as a pure step over the comment
queue (`none` is the shutdown sentinel), the write counter, and two booleans:
`write_fails` (the file I/O inside `_write_single_comment_to_xml` raises) and
`loop_fails` (an exception in the pacing part of the loop body reaches the
worker's own `except` handler).  The step returns the new queue, the new
counter, the observable event trace, and whether the loop continues. -/

inductive WorkerEvent where
  | wsleep (tier : Nat)
  | wtimeout
  | wbreak
  | wwrite_ok
  | wwrite_error_logged
  | wtask_done
  | wbackoff_1s
  deriving DecidableEq, Repr

/-- The pacing tier chosen from the queue depth (main.py lines 811-825):
tier 0 = depth 0 (1-2s), tier 1 = depth 1-5 (0.8-5s), tier 2 = depth 6-10
(0.5-3.5s), tier 3 = depth over 10 (0.3-1s). -/
def wait_tier (qsize : Nat) : Nat :=
  if qsize = 0 then 0 else if qsize ≤ 5 then 1 else if qsize ≤ 10 then 2 else 3

/-- One iteration of `_xml_output_worker` (main.py lines 808-850).  The
`except Exception` of `_write_single_comment_to_xml` (main.py lines 901-902)
catches a failing write inside the call, so the worker body sees a normal
return, acknowledges with `task_done`, and only the counter increment is
skipped; the worker backoff `time.sleep(1)` runs only when an exception reaches
the worker's own handler (main.py lines 848-850). -/
def worker_iteration (q : List (Option CommentItem)) (counter : Nat)
    (write_fails : Bool) (loop_fails : Bool) :
    List (Option CommentItem) × Nat × List WorkerEvent × Bool :=
  if loop_fails then (q, counter, [.wbackoff_1s], true)
  else
    match q with
    | [] => (q, counter, [.wsleep (wait_tier 0), .wtimeout], true)
    | none :: rest =>
        (rest, counter, [.wsleep (wait_tier (rest.length + 1)), .wbreak], false)
    | some _ :: rest =>
        if write_fails then
          (rest, counter,
           [.wsleep (wait_tier (rest.length + 1)), .wwrite_error_logged, .wtask_done], true)
        else
          (rest, counter + 1,
           [.wsleep (wait_tier (rest.length + 1)), .wwrite_ok, .wtask_done], true)

/-- Claim C7, counterexample to the claim as stated.  With one queued item and
a failing write, the iteration trace contains no 1-second backoff event: the
exception is swallowed inside the write routine, so the claimed fixed backoff
before resuming does not happen (the loop does continue). -/
theorem claim_C7_counterexample :
    WorkerEvent.wbackoff_1s ∉
      (worker_iteration [some ⟨"h".toList, "p".toList, "c".toList⟩] 0 true false).2.2.1 ∧
    (worker_iteration [some ⟨"h".toList, "p".toList, "c".toList⟩] 0 true false).2.2.1
      = [.wsleep 1, .wwrite_error_logged, .wtask_done] ∧
    (worker_iteration [some ⟨"h".toList, "p".toList, "c".toList⟩] 0 true false).2.2.2
      = true := by
  decide

/-- Claim C7 (amended): an exception while writing a dequeued item is caught and
logged inside `_write_single_comment_to_xml` itself, so the worker loop body
returns normally: no 1-second backoff occurs, the worker continues (it never
terminates on a single failed write).  The 1-second backoff runs exactly when an
exception reaches the worker loop handler itself, which a failing write never
does. -/
theorem claim_C7 (item : CommentItem) (rest : List (Option CommentItem))
    (counter : Nat) :
    (worker_iteration (some item :: rest) counter true false =
      (rest, counter,
       [.wsleep (wait_tier (rest.length + 1)), .wwrite_error_logged, .wtask_done], true)) ∧
    WorkerEvent.wbackoff_1s ∉
      (worker_iteration (some item :: rest) counter true false).2.2.1 ∧
    (worker_iteration (some item :: rest) counter true false).2.2.2 = true ∧
    (∀ (q : List (Option CommentItem)) (c : Nat) (wf : Bool),
      worker_iteration q c wf true = (q, c, [.wbackoff_1s], true)) := by
  refine ⟨rfl, ?_, rfl, fun q c wf => rfl⟩
  simp [worker_iteration]

/-- Claim C10: when the write of a dequeued item fails, the item has already
been removed from the queue, it is acknowledged with `task_done`, it is not
re-enqueued or retried (the queue afterwards is exactly the remaining tail),
and the write counter is not incremented: the comment is silently dropped. -/
theorem claim_C10 (item : CommentItem) (rest : List (Option CommentItem))
    (counter : Nat) :
    (worker_iteration (some item :: rest) counter true false).1 = rest ∧
    WorkerEvent.wtask_done ∈
      (worker_iteration (some item :: rest) counter true false).2.2.1 ∧
    (worker_iteration (some item :: rest) counter true false).2.1 = counter ∧
    WorkerEvent.wwrite_ok ∉
      (worker_iteration (some item :: rest) counter true false).2.2.1 := by
  refine ⟨rfl, ?_, rfl, ?_⟩ <;> simp [worker_iteration]

/-! ## Pseudo-XML log writer (`main.py`, `_write_single_comment_to_xml`, lines 854-902)

The file content is a `List Char`.  `content.replace('</log>', new)` is modelled
by a fuelled left-to-right scan that replaces every non-overlapping occurrence
of `</log>` without rescanning the replacement, which is CPython semantics. -/

def closeTag : List Char := ['<', '/', 'l', 'o', 'g', '>']

def xmlHeader : List Char := "<?xml version=\"1.0\" encoding=\"utf-8\"?>\n<log>\n".toList

/-- The file created when `self.xml_file` does not exist (main.py lines 866-868). -/
def initial_xml : List Char := xmlHeader ++ closeTag

def digitChar (n : Nat) : Char := Char.ofNat (48 + n % 10)

def natToDigitsAux : Nat → Nat → List Char → List Char
  | 0, _, acc => acc
  | fuel + 1, n, acc =>
      if n = 0 then acc else natToDigitsAux fuel (n / 10) (digitChar n :: acc)

/-- Decimal rendering of a natural, as Python `str(int)` inside the f-string. -/
def natToDigits (n : Nat) : List Char :=
  if n = 0 then ['0'] else natToDigitsAux (n + 1) n []

def isCountDigit (c : Char) : Bool := c.isDigit || (decide ('０' ≤ c) && decide (c ≤ '９'))

/-- Core of one anchored substitution: strip a `(digits+文字)` group (with the
given parentheses) sitting at the very end of the string. -/
def stripCountSuffixEnd (op cl : Char) (s : List Char) : List Char :=
  match s.reverse with
  | c1 :: '字' :: '文' :: rest =>
      if c1 = cl then
        let ds := rest.takeWhile isCountDigit
        match rest.drop ds.length with
        | c2 :: rest2 => if c2 = op ∧ ds ≠ [] then rest2.reverse else s
        | [] => s
      else s
  | _ => s

/-- One of the two anchored substitutions of `remove_character_count` (main.py
lines 93-96).  Python `re`'s `$` (without MULTILINE) matches at the end of the
string or just before a trailing newline; when the string ends with a newline
the only possible match of `\(…文字\)$` ends just before that newline (the
newline itself is kept by `re.sub`), otherwise it ends at the true end. -/
def stripCountSuffix (op cl : Char) (s : List Char) : List Char :=
  match s.getLast? with
  | some c =>
      if c = '\n' then stripCountSuffixEnd op cl s.dropLast ++ ['\n']
      else stripCountSuffixEnd op cl s
  | none => s

/-- Embedding of `OllamaVisionExplainer.remove_character_count` (main.py lines
77-99): strip a half-width, then a full-width trailing character-count
annotation, then strip surrounding whitespace. -/
def remove_character_count (comment : List Char) : List Char :=
  pyStrip (stripCountSuffix '（' '）' (stripCountSuffix '(' ')' comment))

def attr1 : List Char := "  <comment no=\"0\" time=\"".toList

def attr2tail : List Char := " owner=\"0\" service=\"youtubelive\" handle=\"".toList

def closeCommentTail : List Char := "/comment>".toList

/-- The `comment_xml` f-string of `_write_single_comment_to_xml` (main.py line
880), with the time already rendered and the text already count-stripped. -/
def comment_line (t : Nat) (h x : List Char) : List Char :=
  attr1 ++ (natToDigits t ++ ('"' :: (attr2tail ++
    (h ++ ('"' :: '>' :: (x ++ ('<' :: closeCommentTail)))))))

/-- Fuelled scan for `str.replace('</log>', rep)`: each step either copies one
character or, at an occurrence of `</log>`, emits `rep` and skips the six
matched characters.  The fuel only needs to cover the input length. -/
def replaceAux (rep : List Char) : Nat → List Char → List Char
  | _, [] => []
  | 0, s => s
  | fuel + 1, c :: rest =>
      if closeTag.isPrefixOf (c :: rest) then rep ++ replaceAux rep fuel (rest.drop 5)
      else c :: replaceAux rep fuel rest

def pyReplace (rep s : List Char) : List Char := replaceAux rep s.length s

/-- Embedding of `_write_single_comment_to_xml` (main.py lines 854-902): create
the file with an empty root if absent, then textually replace `</log>` by the
new comment element, a newline and `</log>`.  The write-time clock is the
explicit `t`. -/
def write_single_comment_to_xml (file : Option (List Char)) (t : Nat)
    (item : CommentItem) : List Char :=
  let content := match file with | none => initial_xml | some c => c
  pyReplace (comment_line t item.handle (remove_character_count item.comment)
    ++ ('\n' :: closeTag)) content

/-- N successive single-comment writes, threading the file state; each element
carries the write-time unix clock for that write. -/
def run_writes : List (Nat × CommentItem) → Option (List Char) → Option (List Char)
  | [], file => file
  | w :: ws, file =>
      run_writes ws (some (write_single_comment_to_xml file w.1 w.2))

/-- The concatenated comment lines (each followed by the newline the writer
inserts) that the file body accumulates. -/
def lines_of : List (Nat × CommentItem) → List Char
  | [] => []
  | w :: ws =>
      comment_line w.1 w.2.handle (remove_character_count w.2.comment)
        ++ ('\n' :: lines_of ws)

/-- Scanning invariant: every `<` in the list has a following character, and
when that character is `/` the next one is `c` (as in `</comment>`).  The
header and every comment line with `<`-free holes satisfy it, and it rules out
any occurrence of `</log>` before the final close tag (an occurrence cannot
straddle the final tag either, since `<` does not recur inside `</log>`). -/
def ltOk : List Char → Bool
  | [] => true
  | c :: rest =>
      (if c = '<' then
        (match rest with
         | [] => false
         | d :: rest2 =>
             if d = '/' then
               (match rest2.head? with | some e => decide (e = 'c') | none => false)
             else true)
       else true) && ltOk rest

theorem ltOk_cons_tail {c : Char} {rest : List Char}
    (h : ltOk (c :: rest) = true) : ltOk rest = true := by
  simp only [ltOk, Bool.and_eq_true] at h
  exact h.2

theorem ltOk_append :
    ∀ (u v : List Char), ltOk u = true → ltOk v = true →
      ltOk (u ++ v) = true := by
  intro u
  induction u with
  | nil => intro v _ hv; exact hv
  | cons c rest ih =>
      intro v hu hv
      have hrest := ltOk_cons_tail hu
      by_cases hc : c = '<'
      · subst hc
        match rest with
        | [] => exact absurd hu (by simp [ltOk])
        | d :: rest2 =>
            by_cases hd : d = '/'
            · subst hd
              match rest2 with
              | [] => exact absurd hu (by simp [ltOk])
              | e :: rest3 =>
                  by_cases he : e = 'c'
                  · subst he
                    have h2 : ltOk (('/' :: 'c' :: rest3) ++ v) = true := ih v hrest hv
                    simp only [List.cons_append] at h2 ⊢
                    have h3 := ltOk_cons_tail (ltOk_cons_tail h2)
                    simp [ltOk, h3]
                  · exact absurd hu (by simp [ltOk, he])
            · have h2 : ltOk ((d :: rest2) ++ v) = true := ih v hrest hv
              simp only [List.cons_append] at h2 ⊢
              simp only [ltOk, Bool.and_eq_true] at h2 ⊢
              exact ⟨by simp [hd], h2⟩
      · simp only [List.cons_append, ltOk, if_neg hc, Bool.true_and]
        exact ih v hrest hv

theorem ltOk_of_no_lt :
    ∀ (s : List Char), '<' ∉ s → ltOk s = true := by
  intro s
  induction s with
  | nil => intro _; rfl
  | cons c rest ih =>
      intro hmem
      have hc : c ≠ '<' := fun h => hmem (h ▸ List.mem_cons_self _ _)
      simp only [ltOk, if_neg hc, Bool.true_and]
      exact ih (fun h => hmem (List.mem_cons_of_mem _ h))

theorem closeTag_not_pre :
    ∀ (a : List Char), ltOk a = true → a ≠ [] →
      closeTag.isPrefixOf (a ++ closeTag) = false := by
  intro a hs hne
  match a with
  | [c] => simp [closeTag, List.isPrefixOf]
  | [c, d] => simp [closeTag, List.isPrefixOf]
  | c :: d :: e :: rest =>
      by_cases hpre : closeTag.isPrefixOf (c :: d :: e :: rest ++ closeTag) = true
      · exfalso
        simp only [closeTag, List.cons_append, List.isPrefixOf, List.isPrefixOf_cons₂,
          Bool.and_eq_true, beq_iff_eq] at hpre
        obtain ⟨hc, hd, he, -⟩ := hpre
        subst hc; subst hd; subst he
        simp [ltOk] at hs
      · exact Bool.not_eq_true _ ▸ (Bool.eq_false_iff.mpr (fun h => hpre h))

theorem replaceAux_clean :
    ∀ (a rep : List Char) (fuel : Nat), ltOk a = true →
      (a ++ closeTag).length ≤ fuel →
      replaceAux rep fuel (a ++ closeTag) = a ++ rep := by
  intro a
  induction a with
  | nil =>
      intro rep fuel _ hfuel
      simp only [List.nil_append] at hfuel ⊢
      match fuel with
      | 0 => simp [closeTag] at hfuel
      | f + 1 =>
          simp [replaceAux, closeTag, List.isPrefixOf]
  | cons c a2 ih =>
      intro rep fuel hs hfuel
      have hs2 := ltOk_cons_tail hs
      have hpre : closeTag.isPrefixOf ((c :: a2) ++ closeTag) = false :=
        closeTag_not_pre (c :: a2) hs (by simp)
      match fuel with
      | 0 => simp [closeTag] at hfuel
      | f + 1 =>
          simp only [List.cons_append] at hpre ⊢
          simp only [replaceAux, hpre, Bool.false_eq_true, if_false]
          rw [ih rep f hs2 (by simp at hfuel ⊢; omega)]

theorem digitChar_isDigit (n : Nat) : (digitChar n).isDigit = true := by
  unfold digitChar
  have hm : n % 10 < 10 := Nat.mod_lt _ (by omega)
  generalize hg : n % 10 = m
  rw [hg] at hm
  interval_cases m <;> decide

theorem natToDigitsAux_all :
    ∀ (fuel n : Nat) (acc : List Char), (∀ c ∈ acc, c.isDigit = true) →
      ∀ c ∈ natToDigitsAux fuel n acc, c.isDigit = true := by
  intro fuel
  induction fuel with
  | zero => intro n acc hacc; exact hacc
  | succ f ih =>
      intro n acc hacc c hc
      simp only [natToDigitsAux] at hc
      by_cases hn : n = 0
      · rw [if_pos hn] at hc
        exact hacc c hc
      · rw [if_neg hn] at hc
        refine ih (n / 10) _ ?_ c hc
        intro d hd
        rcases List.mem_cons.mp hd with hd | hd
        · rw [hd]; exact digitChar_isDigit n
        · exact hacc d hd

theorem natToDigits_all (n : Nat) : ∀ c ∈ natToDigits n, c.isDigit = true := by
  unfold natToDigits
  by_cases hn : n = 0
  · rw [if_pos hn]
    intro c hc
    rw [List.mem_singleton.mp hc]
    decide
  · rw [if_neg hn]
    exact natToDigitsAux_all (n + 1) n [] (by intro c hc; simp at hc)

theorem natToDigitsAux_len :
    ∀ (fuel n : Nat) (acc : List Char),
      acc.length ≤ (natToDigitsAux fuel n acc).length := by
  intro fuel
  induction fuel with
  | zero => intro n acc; exact Nat.le_refl _
  | succ f ih =>
      intro n acc
      simp only [natToDigitsAux]
      by_cases hn : n = 0
      · rw [if_pos hn]
      · rw [if_neg hn]
        calc acc.length ≤ (digitChar n :: acc).length := by simp
          _ ≤ _ := ih (n / 10) (digitChar n :: acc)

theorem natToDigits_ne_nil (n : Nat) : natToDigits n ≠ [] := by
  unfold natToDigits
  by_cases hn : n = 0
  · rw [if_pos hn]; decide
  · rw [if_neg hn]
    simp only [natToDigitsAux, if_neg hn]
    intro hcontra
    have hlen := natToDigitsAux_len n (n / 10) [digitChar n]
    rw [hcontra] at hlen
    simp at hlen

theorem isDigit_ne_markup (c : Char) (h : c.isDigit = true) :
    c ≠ '/' ∧ c ≠ '"' ∧ c ≠ '<' := by
  refine ⟨?_, ?_, ?_⟩ <;> rintro rfl <;> exact absurd h (by decide)

theorem natToDigits_no_markup (n : Nat) :
    '/' ∉ natToDigits n ∧ '"' ∉ natToDigits n ∧ '<' ∉ natToDigits n := by
  refine ⟨?_, ?_, ?_⟩ <;> intro hmem <;>
    rcases isDigit_ne_markup _ (natToDigits_all n _ hmem) with ⟨h1, h2, h3⟩
  · exact h1 rfl
  · exact h2 rfl
  · exact h3 rfl

theorem ltOk_cons_of_ne {c : Char} {rest : List Char} (hc : c ≠ '<')
    (hrest : ltOk rest = true) : ltOk (c :: rest) = true := by
  simp [ltOk, if_neg hc, hrest]

theorem ltOk_line (t : Nat) (h x : List Char) (hh : '<' ∉ h) (hx : '<' ∉ x) :
    ltOk (comment_line t h x) = true := by
  unfold comment_line
  apply ltOk_append _ _ (by decide)
  apply ltOk_append _ _ (ltOk_of_no_lt _ (natToDigits_no_markup t).2.2)
  apply ltOk_cons_of_ne (by decide)
  apply ltOk_append _ _ (by decide)
  apply ltOk_append _ _ (ltOk_of_no_lt _ hh)
  apply ltOk_cons_of_ne (by decide)
  apply ltOk_cons_of_ne (by decide)
  apply ltOk_append _ _ (ltOk_of_no_lt _ hx)
  decide

theorem run_writes_closed :
    ∀ (ws : List (Nat × CommentItem)) (a : List Char),
      ltOk a = true →
      (∀ w ∈ ws, '<' ∉ w.2.handle ∧ '<' ∉ remove_character_count w.2.comment) →
      run_writes ws (some (a ++ closeTag)) = some (a ++ (lines_of ws ++ closeTag)) := by
  intro ws
  induction ws with
  | nil =>
      intro a _ _
      simp [run_writes, lines_of]
  | cons w ws2 ih =>
      intro a ha hben
      have hbw := hben w (List.mem_cons_self _ _)
      have hline := ltOk_line w.1 w.2.handle (remove_character_count w.2.comment)
        hbw.1 hbw.2
      simp only [run_writes]
      have hwrite : write_single_comment_to_xml (some (a ++ closeTag)) w.1 w.2 =
          a ++ (comment_line w.1 w.2.handle (remove_character_count w.2.comment)
            ++ ('\n' :: closeTag)) := by
        unfold write_single_comment_to_xml pyReplace
        exact replaceAux_clean a _ _ ha (Nat.le_refl _)
      rw [hwrite]
      have ha2 : ltOk (a ++ (comment_line w.1 w.2.handle
          (remove_character_count w.2.comment) ++ ['\n'])) = true := by
        apply ltOk_append _ _ ha
        apply ltOk_append _ _ hline
        decide
      have hassoc : a ++ (comment_line w.1 w.2.handle
            (remove_character_count w.2.comment) ++ ('\n' :: closeTag)) =
          (a ++ (comment_line w.1 w.2.handle
            (remove_character_count w.2.comment) ++ ['\n'])) ++ closeTag := by
        simp
      rw [hassoc, ih _ ha2 (fun w2 hw2 => hben w2 (List.mem_cons_of_mem _ hw2))]
      simp [lines_of]

/-! ## Reading the log back

A small exact parser for the file shape the writer maintains: the XML prologue
and root opener, then comment elements (literal `no="0"`, `owner="0"`,
`service="youtubelive"` attributes, a time attribute that must be a non-empty
digit string, a handle, a text body), each followed by a newline, then the
closing `</log>`.  Well-formedness of the embedded data is enforced as in XML
for documents without entity references: an attribute value may contain no `<`,
`"` or `&`, and character data may contain no `<` or `&` (a bare `&` makes the
document ill-formed).  A successful parse is the formal reading of "parseable
as well-formed markup containing exactly these comment entries". -/

structure LogEntry where
  time_str : List Char
  handle : List Char
  text : List Char
  deriving DecidableEq, Repr

def parseLiteral (lit s : List Char) : Option (List Char) :=
  if lit.isPrefixOf s then some (s.drop lit.length) else none

def parseUntil (stop : Char) : List Char → Option (List Char × List Char)
  | [] => none
  | c :: rest =>
      if c = stop then some ([], rest)
      else (parseUntil stop rest).map (fun p => (c :: p.1, p.2))

def parse_entry (s : List Char) : Option (LogEntry × List Char) :=
  (parseLiteral attr1 s).bind (fun s1 =>
  (parseUntil '"' s1).bind (fun ts =>
  if ts.1 ≠ [] ∧ ts.1.all Char.isDigit then
    (parseLiteral attr2tail ts.2).bind (fun s3 =>
    (parseUntil '"' s3).bind (fun hs =>
    if '<' ∉ hs.1 ∧ '&' ∉ hs.1 then
      (parseLiteral ['>'] hs.2).bind (fun s5 =>
      (parseUntil '<' s5).bind (fun xs =>
      if '&' ∉ xs.1 then
        (parseLiteral (closeCommentTail ++ ['\n']) xs.2).map (fun s7 =>
        (⟨ts.1, hs.1, xs.1⟩, s7))
      else none))
    else none))
  else none))

def parse_entries : Nat → List Char → Option (List LogEntry)
  | 0, s => if s = closeTag then some [] else none
  | f + 1, s =>
      if s = closeTag then some []
      else
        match parse_entry s with
        | none => none
        | some (e, rest) => (parse_entries f rest).map (fun es => e :: es)

def parseLog (s : List Char) : Option (List LogEntry) :=
  (parseLiteral xmlHeader s).bind (fun rest => parse_entries s.length rest)

theorem isPrefixOf_append_self :
    ∀ (lit r : List Char), lit.isPrefixOf (lit ++ r) = true := by
  intro lit r
  induction lit with
  | nil => simp [List.isPrefixOf]
  | cons c cs ih => simp [List.isPrefixOf, ih]

theorem parseLiteral_append (lit r : List Char) :
    parseLiteral lit (lit ++ r) = some r := by
  unfold parseLiteral
  rw [if_pos (isPrefixOf_append_self lit r), List.drop_left]

theorem parseUntil_append (stop : Char) :
    ∀ (x r : List Char), stop ∉ x → parseUntil stop (x ++ (stop :: r)) = some (x, r) := by
  intro x
  induction x with
  | nil => intro r _; simp [parseUntil]
  | cons c cs ih =>
      intro r hmem
      have hc : c ≠ stop := fun h => hmem (h ▸ List.mem_cons_self _ _)
      simp only [List.cons_append, parseUntil, if_neg hc, List.append_eq]
      rw [ih r (fun h2 => hmem (List.mem_cons_of_mem _ h2))]
      rfl

theorem parse_entry_line (t : Nat) (h x r : List Char)
    (hh1 : '"' ∉ h) (hh2 : '<' ∉ h) (hh3 : '&' ∉ h)
    (hx1 : '<' ∉ x) (hx2 : '&' ∉ x) :
    parse_entry (comment_line t h x ++ ('\n' :: r)) = some (⟨natToDigits t, h, x⟩, r) := by
  have hall : (natToDigits t).all Char.isDigit = true :=
    List.all_eq_true.mpr (natToDigits_all t)
  have hshape : comment_line t h x ++ ('\n' :: r) =
      attr1 ++ (natToDigits t ++ ('"' :: (attr2tail ++ (h ++ ('"' :: '>' ::
        (x ++ ('<' :: (closeCommentTail ++ ('\n' :: r))))))))) := by
    simp [comment_line, List.append_assoc]
  rw [hshape]
  unfold parse_entry
  rw [parseLiteral_append, Option.some_bind,
    parseUntil_append '"' (natToDigits t) _ (natToDigits_no_markup t).2.1,
    Option.some_bind]
  rw [if_pos ⟨natToDigits_ne_nil t, hall⟩]
  rw [parseLiteral_append, Option.some_bind,
    parseUntil_append '"' h _ hh1, Option.some_bind]
  rw [if_pos ⟨hh2, hh3⟩]
  rw [show ('>' : Char) :: (x ++ ('<' :: (closeCommentTail ++ ('\n' :: r)))) =
      ['>'] ++ (x ++ ('<' :: (closeCommentTail ++ ('\n' :: r)))) from rfl]
  rw [parseLiteral_append, Option.some_bind,
    parseUntil_append '<' x _ hx1, Option.some_bind]
  rw [if_pos hx2]
  rw [show closeCommentTail ++ ('\n' :: r) = (closeCommentTail ++ ['\n']) ++ r by simp]
  rw [parseLiteral_append]
  rfl

def entry_of (w : Nat × CommentItem) : LogEntry :=
  ⟨natToDigits w.1, w.2.handle, remove_character_count w.2.comment⟩

theorem parse_entries_closeTag (fuel : Nat) :
    parse_entries fuel closeTag = some [] := by
  cases fuel <;> simp [parse_entries]

theorem attr1_head (y : List Char) : (attr1 ++ y).head? = some ' ' := rfl

theorem parse_entries_lines :
    ∀ (ws : List (Nat × CommentItem)) (fuel : Nat),
      (∀ w ∈ ws, '"' ∉ w.2.handle ∧ '<' ∉ w.2.handle ∧ '&' ∉ w.2.handle ∧
        '<' ∉ remove_character_count w.2.comment ∧
        '&' ∉ remove_character_count w.2.comment) →
      ws.length ≤ fuel →
      parse_entries fuel (lines_of ws ++ closeTag) = some (ws.map entry_of) := by
  intro ws
  induction ws with
  | nil =>
      intro fuel _ _
      simp only [lines_of, List.nil_append]
      exact parse_entries_closeTag fuel
  | cons w ws2 ih =>
      intro fuel hben hfuel
      have hform : lines_of (w :: ws2) ++ closeTag =
          comment_line w.1 w.2.handle (remove_character_count w.2.comment) ++
            ('\n' :: (lines_of ws2 ++ closeTag)) := by
        simp [lines_of, List.append_assoc]
      have hh : (comment_line w.1 w.2.handle (remove_character_count w.2.comment) ++
          ('\n' :: (lines_of ws2 ++ closeTag))).head? = some ' ' := by
        simp only [comment_line, List.append_assoc]
        exact attr1_head _
      have hne : comment_line w.1 w.2.handle (remove_character_count w.2.comment) ++
          ('\n' :: (lines_of ws2 ++ closeTag)) ≠ closeTag := by
        intro heq
        rw [heq] at hh
        exact absurd hh (by decide)
      have hbw := hben w (List.mem_cons_self _ _)
      rw [hform]
      match fuel with
      | 0 => simp at hfuel
      | f + 1 =>
          rw [parse_entries, if_neg hne,
            parse_entry_line w.1 w.2.handle (remove_character_count w.2.comment)
              (lines_of ws2 ++ closeTag) hbw.1 hbw.2.1 hbw.2.2.1 hbw.2.2.2.1 hbw.2.2.2.2]
          simp only [ih f (fun w2 hw2 => hben w2 (List.mem_cons_of_mem _ hw2))
            (by simp at hfuel ⊢; omega)]
          simp [entry_of]

theorem lines_of_length_ge : ∀ (ws : List (Nat × CommentItem)),
    ws.length ≤ (lines_of ws).length := by
  intro ws
  induction ws with
  | nil => simp [lines_of]
  | cons w ws2 ih =>
      simp only [lines_of, List.length_append, List.length_cons]
      omega

theorem parseLog_round (ws : List (Nat × CommentItem))
    (hben : ∀ w ∈ ws, '"' ∉ w.2.handle ∧ '<' ∉ w.2.handle ∧ '&' ∉ w.2.handle ∧
      '<' ∉ remove_character_count w.2.comment ∧
      '&' ∉ remove_character_count w.2.comment) :
    parseLog (xmlHeader ++ (lines_of ws ++ closeTag)) = some (ws.map entry_of) := by
  unfold parseLog
  rw [parseLiteral_append, Option.some_bind]
  apply parse_entries_lines ws _ hben
  have := lines_of_length_ge ws
  simp only [List.length_append]
  omega

/-- Claim C2, counterexample to the claim as stated.  The claim quantifies over
every sequence of CommentItems, but the writer escapes nothing: a single write
of an item whose (count-stripped) text is the one character `<` produces a file
that is no longer parseable as well-formed markup, so the round trip fails; a
bare `&` in the text (an ill-formed entity start in XML) breaks it as well. -/
theorem claim_C2_counterexample :
    remove_character_count ("<".toList) = "<".toList ∧
    parseLog (write_single_comment_to_xml (some initial_xml) 0
      ⟨"h".toList, "p".toList, "<".toList⟩) = none ∧
    parseLog (write_single_comment_to_xml (some initial_xml) 0
      ⟨"h".toList, "p".toList, "a&b".toList⟩) = none := by
  refine ⟨by decide, by decide, by decide⟩

/-- Claim C2 (amended): for every N and every sequence of N CommentItems whose
handles contain none of the markup metacharacters `<`, `"`, `&` and whose
count-stripped texts contain neither `<` nor `&` (the writer applies no
escaping, so exactly the characters that break well-formedness are excluded;
`/`, `>` and quotes in text are fine and round-trip), starting from the
auto-created empty log and performing the N writes yields exactly the header,
the N comment lines in write order (each inserted immediately before the
closing tag), and the closing tag; the file parses back to exactly the N
entries in write order, each carrying the literal `no="0"`, `owner="0"` and
`service="youtubelive"` attributes (enforced by the parser literals), the
decimal rendering of the write-time clock (a non-empty digit string), the
handle, and the count-stripped text.  Writing with no file present produces
the same content as writing on the auto-created empty log. -/
theorem claim_C2 (ws : List (Nat × CommentItem))
    (hbenign : ∀ w ∈ ws, '"' ∉ w.2.handle ∧ '<' ∉ w.2.handle ∧ '&' ∉ w.2.handle ∧
      '<' ∉ remove_character_count w.2.comment ∧
      '&' ∉ remove_character_count w.2.comment) :
    run_writes ws (some initial_xml) = some (xmlHeader ++ (lines_of ws ++ closeTag)) ∧
    parseLog (xmlHeader ++ (lines_of ws ++ closeTag)) = some (ws.map entry_of) ∧
    (∀ w ∈ ws, natToDigits w.1 ≠ [] ∧ ∀ c ∈ natToDigits w.1, c.isDigit = true) ∧
    (∀ (t : Nat) (it : CommentItem),
      write_single_comment_to_xml none t it =
        write_single_comment_to_xml (some initial_xml) t it) := by
  refine ⟨?_, ?_, ?_, fun t it => rfl⟩
  · exact run_writes_closed ws xmlHeader (by decide)
      (fun w hw => ⟨(hbenign w hw).2.1, (hbenign w hw).2.2.2.1⟩)
  · exact parseLog_round ws (fun w hw => hbenign w hw)
  · intro w _
    exact ⟨natToDigits_ne_nil w.1, natToDigits_all w.1⟩

/-- Claim C2, witness: one write with time 12, handle "hand" and text
"1/2 hi!(6文字)"; the slash needs no exclusion — the file has the closed form
and parses back to the single entry with time string "12" and the
count-stripped text "1/2 hi!". -/
theorem claim_C2_witness :
    run_writes [(12, ⟨"hand".toList, "p".toList, "1/2 hi!(6文字)".toList⟩)]
        (some initial_xml) =
      some (xmlHeader ++
        (lines_of [(12, ⟨"hand".toList, "p".toList, "1/2 hi!(6文字)".toList⟩)] ++ closeTag)) ∧
    parseLog (xmlHeader ++
        (lines_of [(12, ⟨"hand".toList, "p".toList, "1/2 hi!(6文字)".toList⟩)] ++ closeTag)) =
      some [⟨"12".toList, "hand".toList, "1/2 hi!".toList⟩] := by
  have h := claim_C2 [(12, ⟨"hand".toList, "p".toList, "1/2 hi!(6文字)".toList⟩)] (by decide)
  refine ⟨h.1, h.2.1.trans ?_⟩
  decide
